import Mathlib

/-!
Verification of the `format.py` codec of py-caskdb.

The module is embedded shallowly:

* Python byte strings become `List Nat` (each element intended to lie in
  `[0, 255]`; every constructor below only produces such bytes).
* Python `str` becomes Lean `String` (a list of Unicode scalar values, which
  is exactly the set of Python strings that `str.encode("utf-8")` accepts).
* Python `int` becomes `Int` where a negative input is possible
  (`int.to_bytes`) and `Nat` elsewhere.
* A Python call that can raise (`int.to_bytes` raising `OverflowError`,
  `bytes.decode("utf-8")` raising `UnicodeDecodeError`) becomes an
  `Option`-valued function returning `none` on the raising inputs.
* Python slicing `data[i:j]`, which clamps to the available bytes and never
  raises, becomes `(data.drop i).take (j - i)`.
-/

/-- The 4-byte little-endian byte list of a natural number below `2 ^ 32`:
the byte layout produced by Python's `n.to_bytes(4, "little")` when it
succeeds. -/
def le4 (n : Nat) : List Nat :=
  [n % 256, n / 256 % 256, n / 65536 % 256, n / 16777216 % 256]

/-- Embedding of Python `int.from_bytes(data, "little")`: interprets a byte
list (possibly empty, possibly shorter than 4 bytes) as a little-endian
unsigned integer. -/
def fromBytesLE : List Nat → Nat
  | [] => 0
  | b :: rest => b + 256 * fromBytesLE rest

/-- Embedding of Python `n.to_bytes(4, "little")`: returns the 4 bytes when
`0 ≤ n < 2 ^ 32` and fails (Python raises `OverflowError`) otherwise. -/
def to_bytes4 (n : Int) : Option (List Nat) :=
  if 0 ≤ n ∧ n < 4294967296 then some (le4 n.toNat) else none

/-- Embedding of `format.encode_header`: concatenates the three 4-byte
little-endian fields `timestamp`, `key_size`, `value_size`, failing exactly
when one of the `to_bytes` calls fails. -/
def encode_header (timestamp key_size value_size : Int) : Option (List Nat) :=
  match to_bytes4 timestamp, to_bytes4 key_size, to_bytes4 value_size with
  | some encode_timestamp, some encode_key_size, some encode_value_size =>
      some (encode_timestamp ++ encode_key_size ++ encode_value_size)
  | _, _, _ => none

/-- UTF-8 encoding of a single Unicode scalar value, as Python's
`str.encode("utf-8")` produces it for one character. -/
def utf8EncodeChar (c : Char) : List Nat :=
  let v := c.toNat
  if v < 128 then [v]
  else if v < 2048 then [192 + v / 64, 128 + v % 64]
  else if v < 65536 then [224 + v / 4096, 128 + v / 64 % 64, 128 + v % 64]
  else [240 + v / 262144, 128 + v / 4096 % 64, 128 + v / 64 % 64, 128 + v % 64]

/-- UTF-8 encoding of a list of characters. -/
def utf8EncodeChars : List Char → List Nat
  | [] => []
  | c :: cs => utf8EncodeChar c ++ utf8EncodeChars cs

/-- Embedding of Python `s.encode("utf-8")`. -/
def utf8Encode (s : String) : List Nat :=
  utf8EncodeChars s.data

/-- Embedding of `format.encode_kv`: UTF-8-encodes key and value, builds the
header from their byte lengths, and returns the timestamp together with
`header ++ key bytes ++ value bytes`; a header failure propagates. -/
def encode_kv (timestamp : Int) (key value : String) :
    Option (Int × List Nat) :=
  let encode_key := utf8Encode key
  let encode_value := utf8Encode value
  match encode_header timestamp encode_key.length encode_value.length with
  | some header_bytes => some (timestamp, header_bytes ++ encode_key ++ encode_value)
  | none => none

/-- One step of strict UTF-8 decoding, as Python's `bytes.decode("utf-8")`
performs it for the first character: reads one scalar value off the front of
the byte list and returns it with the remaining bytes, rejecting stray
continuation bytes, overlong forms, surrogates, code points above
`0x10FFFF`, truncated multi-byte sequences, and the empty input. -/
def utf8Step : List Nat → Option (Char × List Nat)
  | [] => none
  | b :: rest =>
    if b < 128 then
      some (Char.ofNat b, rest)
    else if b < 194 then
      none
    else if b < 224 then
      match rest with
      | b1 :: rest₁ =>
        if 128 ≤ b1 ∧ b1 < 192 then
          some (Char.ofNat ((b - 192) * 64 + (b1 - 128)), rest₁)
        else none
      | [] => none
    else if b < 240 then
      match rest with
      | b1 :: b2 :: rest₂ =>
        let v := (b - 224) * 4096 + (b1 - 128) * 64 + (b2 - 128)
        if 128 ≤ b1 ∧ b1 < 192 ∧ 128 ≤ b2 ∧ b2 < 192 ∧ 2048 ≤ v ∧
            (v < 55296 ∨ 57344 ≤ v) then
          some (Char.ofNat v, rest₂)
        else none
      | _ => none
    else if b < 245 then
      match rest with
      | b1 :: b2 :: b3 :: rest₃ =>
        let v := (b - 240) * 262144 + (b1 - 128) * 4096 + (b2 - 128) * 64 +
          (b3 - 128)
        if 128 ≤ b1 ∧ b1 < 192 ∧ 128 ≤ b2 ∧ b2 < 192 ∧ 128 ≤ b3 ∧ b3 < 192 ∧
            65536 ≤ v ∧ v < 1114112 then
          some (Char.ofNat v, rest₃)
        else none
      | _ => none
    else none

/-- Iterated strict UTF-8 decoding.  `fuel` only bounds the recursion depth;
since every `utf8Step` consumes at least one byte, any `fuel ≥` the length
of the byte list yields the decoder's value (`utf8DecodeAux_congr`). -/
def utf8DecodeAux : Nat → List Nat → Option (List Char)
  | _, [] => some []
  | 0, _ :: _ => none
  | fuel + 1, b :: rest =>
    match utf8Step (b :: rest) with
    | some (c, tail) => (utf8DecodeAux fuel tail).map (c :: ·)
    | none => none

/-- Embedding of Python `bytes.decode("utf-8")`: strict UTF-8 decoding of a
whole byte list, `none` exactly where Python raises `UnicodeDecodeError`. -/
def utf8Decode? (l : List Nat) : Option (List Char) := utf8DecodeAux l.length l

/-- Embedding of `format.decode_header`: reads the three little-endian
fields from the byte ranges `[0:4]`, `[4:8]`, `[8:12]`; like the Python
slices, a short input yields the (smaller) number encoded by the bytes that
are present. -/
def decode_header (data : List Nat) : Nat × Nat × Nat :=
  (fromBytesLE (data.take 4),
   fromBytesLE ((data.drop 4).take 4),
   fromBytesLE ((data.drop 8).take 4))

/-- Embedding of `format.decode_kv`: decodes the header from `data[0:12]`,
then UTF-8-decodes `data[12:12+key_size]` as the key and
`data[12+key_size:12+key_size+value_size]` as the value; a
`UnicodeDecodeError` in either decode propagates as `none`. -/
def decode_kv (data : List Nat) : Option (Nat × String × String) :=
  match decode_header (data.take 12) with
  | (timestamp, key_size, value_size) =>
    match utf8Decode? ((data.drop 12).take key_size),
        utf8Decode? ((data.drop (12 + key_size)).take value_size) with
    | some key, some value => some (timestamp, ⟨key⟩, ⟨value⟩)
    | _, _ => none

example : decode_kv [] = some (0, "", "") := by decide
example : utf8Encode "héllo" = [104, 195, 169, 108, 108, 111] := by decide
example : utf8Decode? [104, 195, 169] = some ['h', 'é'] := by decide
example : utf8Decode? [255] = none := by decide
example : utf8Decode? [237, 160, 128] = none := by decide
example : utf8Decode? [192, 175] = none := by decide
example : encode_header (-1) 0 0 = none := by decide

/-! ### Facts about single-character UTF-8 encoding and decoding -/

/-- `Char.ofNat` inverts `Char.toNat` on valid scalar values. -/
theorem toNat_ofNat_of_valid {n : Nat} (h : n.isValidChar) :
    (Char.ofNat n).toNat = n := by
  unfold Char.ofNat
  rw [dif_pos h]
  rfl

/-- The scalar value of a `Char` avoids the surrogate range and is below
`0x110000`. -/
theorem char_valid_bounds (c : Char) :
    c.toNat < 55296 ∨ (57344 ≤ c.toNat ∧ c.toNat < 1114112) := c.valid

theorem utf8Step_ascii {b : Nat} (rest : List Nat) (h : b < 128) :
    utf8Step (b :: rest) = some (Char.ofNat b, rest) := by
  simp [utf8Step, h]

theorem utf8Step_two {b b1 : Nat} (rest : List Nat) (h0 : ¬ b < 128)
    (h1 : ¬ b < 194) (h2 : b < 224) (h3 : 128 ≤ b1 ∧ b1 < 192) :
    utf8Step (b :: b1 :: rest) =
      some (Char.ofNat ((b - 192) * 64 + (b1 - 128)), rest) := by
  simp [utf8Step, h0, h1, h2, h3]

theorem utf8Step_three {b b1 b2 : Nat} (rest : List Nat) (h0 : ¬ b < 128)
    (h1 : ¬ b < 194) (h2 : ¬ b < 224) (h3 : b < 240)
    (h4 : 128 ≤ b1 ∧ b1 < 192 ∧ 128 ≤ b2 ∧ b2 < 192 ∧
      2048 ≤ (b - 224) * 4096 + (b1 - 128) * 64 + (b2 - 128) ∧
      ((b - 224) * 4096 + (b1 - 128) * 64 + (b2 - 128) < 55296 ∨
        57344 ≤ (b - 224) * 4096 + (b1 - 128) * 64 + (b2 - 128))) :
    utf8Step (b :: b1 :: b2 :: rest) =
      some (Char.ofNat ((b - 224) * 4096 + (b1 - 128) * 64 + (b2 - 128)), rest) := by
  simp only [utf8Step, if_neg h0, if_neg h1, if_neg h2, if_pos h3]
  rw [if_pos h4]

theorem utf8Step_four {b b1 b2 b3 : Nat} (rest : List Nat) (h0 : ¬ b < 128)
    (h1 : ¬ b < 194) (h2 : ¬ b < 224) (h3 : ¬ b < 240) (h4 : b < 245)
    (h5 : 128 ≤ b1 ∧ b1 < 192 ∧ 128 ≤ b2 ∧ b2 < 192 ∧ 128 ≤ b3 ∧ b3 < 192 ∧
      65536 ≤ (b - 240) * 262144 + (b1 - 128) * 4096 + (b2 - 128) * 64 + (b3 - 128) ∧
      (b - 240) * 262144 + (b1 - 128) * 4096 + (b2 - 128) * 64 + (b3 - 128) < 1114112) :
    utf8Step (b :: b1 :: b2 :: b3 :: rest) =
      some (Char.ofNat
        ((b - 240) * 262144 + (b1 - 128) * 4096 + (b2 - 128) * 64 + (b3 - 128)), rest) := by
  simp only [utf8Step, if_neg h0, if_neg h1, if_neg h2, if_neg h3, if_pos h4]
  rw [if_pos h5]

/-- Decoding undoes the single-character encoding, leaving trailing bytes
untouched. -/
theorem utf8Step_encodeChar (c : Char) (rest : List Nat) :
    utf8Step (utf8EncodeChar c ++ rest) = some (c, rest) := by
  have hval := char_valid_bounds c
  by_cases h1 : c.toNat < 128
  · have he : utf8EncodeChar c = [c.toNat] := by simp [utf8EncodeChar, h1]
    rw [he, List.cons_append, List.nil_append, utf8Step_ascii rest h1,
      Char.ofNat_toNat]
  · by_cases h2 : c.toNat < 2048
    · have he : utf8EncodeChar c = [192 + c.toNat / 64, 128 + c.toNat % 64] := by
        simp [utf8EncodeChar, h1, h2]
      rw [he]
      rw [show ([192 + c.toNat / 64, 128 + c.toNat % 64] : List Nat) ++ rest =
        (192 + c.toNat / 64) :: (128 + c.toNat % 64) :: rest from rfl]
      rw [utf8Step_two rest (by omega) (by omega) (by omega) (by omega)]
      have harg : (192 + c.toNat / 64 - 192) * 64 + (128 + c.toNat % 64 - 128) =
          c.toNat := by omega
      rw [harg, Char.ofNat_toNat]
    · by_cases h3 : c.toNat < 65536
      · have he : utf8EncodeChar c =
            [224 + c.toNat / 4096, 128 + c.toNat / 64 % 64, 128 + c.toNat % 64] := by
          simp [utf8EncodeChar, h1, h2, h3]
        rw [he]
        rw [show ([224 + c.toNat / 4096, 128 + c.toNat / 64 % 64,
            128 + c.toNat % 64] : List Nat) ++ rest =
          (224 + c.toNat / 4096) :: (128 + c.toNat / 64 % 64) ::
            (128 + c.toNat % 64) :: rest from rfl]
        rw [utf8Step_three rest (by omega) (by omega) (by omega) (by omega)
          (by refine ⟨by omega, by omega, by omega, by omega, by omega, ?_⟩; omega)]
        have harg : (224 + c.toNat / 4096 - 224) * 4096 +
            (128 + c.toNat / 64 % 64 - 128) * 64 + (128 + c.toNat % 64 - 128) =
            c.toNat := by omega
        rw [harg, Char.ofNat_toNat]
      · have he : utf8EncodeChar c =
            [240 + c.toNat / 262144, 128 + c.toNat / 4096 % 64,
             128 + c.toNat / 64 % 64, 128 + c.toNat % 64] := by
          simp [utf8EncodeChar, h1, h2, h3]
        have hub : c.toNat < 1114112 := by omega
        rw [he]
        rw [show ([240 + c.toNat / 262144, 128 + c.toNat / 4096 % 64,
            128 + c.toNat / 64 % 64, 128 + c.toNat % 64] : List Nat) ++ rest =
          (240 + c.toNat / 262144) :: (128 + c.toNat / 4096 % 64) ::
            (128 + c.toNat / 64 % 64) :: (128 + c.toNat % 64) :: rest from rfl]
        rw [utf8Step_four rest (by omega) (by omega) (by omega) (by omega)
          (by omega) (by exact ⟨by omega, by omega, by omega, by omega, by omega,
            by omega, by omega, by omega⟩)]
        have harg : (240 + c.toNat / 262144 - 240) * 262144 +
            (128 + c.toNat / 4096 % 64 - 128) * 4096 +
            (128 + c.toNat / 64 % 64 - 128) * 64 + (128 + c.toNat % 64 - 128) =
            c.toNat := by omega
        rw [harg, Char.ofNat_toNat]

theorem utf8EncodeChar_length_pos (c : Char) : 0 < (utf8EncodeChar c).length := by
  simp only [utf8EncodeChar]
  split_ifs <;> simp

/-- A successful decoding step consumed exactly the encoding of the decoded
character: `utf8Step` only accepts the canonical (shortest) encoding. -/
theorem utf8Step_sound : ∀ {l : List Nat} {c : Char} {tail : List Nat},
    utf8Step l = some (c, tail) → utf8EncodeChar c ++ tail = l := by
  intro l c tail h
  match l with
  | [] => simp [utf8Step] at h
  | b :: rest =>
    by_cases h0 : b < 128
    · rw [utf8Step_ascii rest h0] at h
      obtain ⟨hc, ht⟩ := Prod.mk.injEq .. ▸ Option.some.inj h
      have htn : (Char.ofNat b).toNat = b :=
        toNat_ofNat_of_valid (Or.inl (by omega))
      have he : utf8EncodeChar (Char.ofNat b) = [b] := by
        simp [utf8EncodeChar, htn, h0]
      rw [← hc, ← ht, he, List.cons_append, List.nil_append]
    · by_cases h1 : b < 194
      · simp [utf8Step, h0, h1] at h
      · by_cases h2 : b < 224
        · match rest with
          | [] => simp [utf8Step, h0, h1, h2] at h
          | b1 :: rest₁ =>
            by_cases h3 : 128 ≤ b1 ∧ b1 < 192
            · rw [utf8Step_two rest₁ h0 h1 h2 h3] at h
              obtain ⟨hc, ht⟩ := Prod.mk.injEq .. ▸ Option.some.inj h
              have hv : (b - 192) * 64 + (b1 - 128) < 2048 := by omega
              have hv' : 128 ≤ (b - 192) * 64 + (b1 - 128) := by omega
              have htn : (Char.ofNat ((b - 192) * 64 + (b1 - 128))).toNat =
                  (b - 192) * 64 + (b1 - 128) :=
                toNat_ofNat_of_valid (Or.inl (by omega))
              have he : utf8EncodeChar (Char.ofNat ((b - 192) * 64 + (b1 - 128))) =
                  [192 + ((b - 192) * 64 + (b1 - 128)) / 64,
                   128 + ((b - 192) * 64 + (b1 - 128)) % 64] := by
                simp only [utf8EncodeChar, htn]
                rw [if_neg (by omega), if_pos hv]
              have e1 : 192 + ((b - 192) * 64 + (b1 - 128)) / 64 = b := by omega
              have e2 : 128 + ((b - 192) * 64 + (b1 - 128)) % 64 = b1 := by omega
              rw [← hc, ← ht, he, e1, e2, List.cons_append, List.cons_append,
                List.nil_append]
            · simp [utf8Step, h0, h1, h2, h3] at h
        · by_cases h3 : b < 240
          · match rest with
            | [] => simp [utf8Step, h0, h1, h2, h3] at h
            | [b1] => simp [utf8Step, h0, h1, h2, h3] at h
            | b1 :: b2 :: rest₂ =>
              by_cases h4 : 128 ≤ b1 ∧ b1 < 192 ∧ 128 ≤ b2 ∧ b2 < 192 ∧
                  2048 ≤ (b - 224) * 4096 + (b1 - 128) * 64 + (b2 - 128) ∧
                  ((b - 224) * 4096 + (b1 - 128) * 64 + (b2 - 128) < 55296 ∨
                    57344 ≤ (b - 224) * 4096 + (b1 - 128) * 64 + (b2 - 128))
              · rw [utf8Step_three rest₂ h0 h1 h2 h3 h4] at h
                obtain ⟨hc, ht⟩ := Prod.mk.injEq .. ▸ Option.some.inj h
                obtain ⟨c1, c2, c3, c4, c5, c6⟩ := h4
                have hv : (b - 224) * 4096 + (b1 - 128) * 64 + (b2 - 128) <
                    65536 := by omega
                have htn : (Char.ofNat
                    ((b - 224) * 4096 + (b1 - 128) * 64 + (b2 - 128))).toNat =
                    (b - 224) * 4096 + (b1 - 128) * 64 + (b2 - 128) :=
                  toNat_ofNat_of_valid (by omega)
                have he : utf8EncodeChar (Char.ofNat
                    ((b - 224) * 4096 + (b1 - 128) * 64 + (b2 - 128))) =
                    [224 + ((b - 224) * 4096 + (b1 - 128) * 64 + (b2 - 128)) / 4096,
                     128 + ((b - 224) * 4096 + (b1 - 128) * 64 + (b2 - 128)) / 64 % 64,
                     128 + ((b - 224) * 4096 + (b1 - 128) * 64 + (b2 - 128)) % 64] := by
                  simp only [utf8EncodeChar, htn]
                  rw [if_neg (by omega), if_neg (by omega), if_pos hv]
                have e1 : 224 + ((b - 224) * 4096 + (b1 - 128) * 64 + (b2 - 128)) /
                    4096 = b := by omega
                have e2 : 128 + ((b - 224) * 4096 + (b1 - 128) * 64 + (b2 - 128)) /
                    64 % 64 = b1 := by omega
                have e3 : 128 + ((b - 224) * 4096 + (b1 - 128) * 64 + (b2 - 128)) %
                    64 = b2 := by omega
                rw [← hc, ← ht, he, e1, e2, e3, List.cons_append, List.cons_append,
                  List.cons_append, List.nil_append]
              · simp only [utf8Step, if_neg h0, if_neg h1, if_neg h2,
                  if_pos h3] at h
                rw [if_neg h4] at h
                cases h
          · by_cases h4 : b < 245
            · match rest with
              | [] => simp [utf8Step, h0, h1, h2, h3, h4] at h
              | [b1] => simp [utf8Step, h0, h1, h2, h3, h4] at h
              | [b1, b2] => simp [utf8Step, h0, h1, h2, h3, h4] at h
              | b1 :: b2 :: b3 :: rest₃ =>
                by_cases h5 : 128 ≤ b1 ∧ b1 < 192 ∧ 128 ≤ b2 ∧ b2 < 192 ∧
                    128 ≤ b3 ∧ b3 < 192 ∧
                    65536 ≤ (b - 240) * 262144 + (b1 - 128) * 4096 +
                      (b2 - 128) * 64 + (b3 - 128) ∧
                    (b - 240) * 262144 + (b1 - 128) * 4096 + (b2 - 128) * 64 +
                      (b3 - 128) < 1114112
                · rw [utf8Step_four rest₃ h0 h1 h2 h3 h4 h5] at h
                  obtain ⟨hc, ht⟩ := Prod.mk.injEq .. ▸ Option.some.inj h
                  obtain ⟨c1, c2, c3, c4, c5, c6, c7, c8⟩ := h5
                  have htn : (Char.ofNat ((b - 240) * 262144 + (b1 - 128) * 4096 +
                      (b2 - 128) * 64 + (b3 - 128))).toNat =
                      (b - 240) * 262144 + (b1 - 128) * 4096 + (b2 - 128) * 64 +
                      (b3 - 128) :=
                    toNat_ofNat_of_valid (by omega)
                  have he : utf8EncodeChar (Char.ofNat ((b - 240) * 262144 +
                      (b1 - 128) * 4096 + (b2 - 128) * 64 + (b3 - 128))) =
                      [240 + ((b - 240) * 262144 + (b1 - 128) * 4096 +
                        (b2 - 128) * 64 + (b3 - 128)) / 262144,
                       128 + ((b - 240) * 262144 + (b1 - 128) * 4096 +
                        (b2 - 128) * 64 + (b3 - 128)) / 4096 % 64,
                       128 + ((b - 240) * 262144 + (b1 - 128) * 4096 +
                        (b2 - 128) * 64 + (b3 - 128)) / 64 % 64,
                       128 + ((b - 240) * 262144 + (b1 - 128) * 4096 +
                        (b2 - 128) * 64 + (b3 - 128)) % 64] := by
                    simp only [utf8EncodeChar, htn]
                    rw [if_neg (by omega), if_neg (by omega), if_neg (by omega)]
                  have e1 : 240 + ((b - 240) * 262144 + (b1 - 128) * 4096 +
                      (b2 - 128) * 64 + (b3 - 128)) / 262144 = b := by omega
                  have e2 : 128 + ((b - 240) * 262144 + (b1 - 128) * 4096 +
                      (b2 - 128) * 64 + (b3 - 128)) / 4096 % 64 = b1 := by omega
                  have e3 : 128 + ((b - 240) * 262144 + (b1 - 128) * 4096 +
                      (b2 - 128) * 64 + (b3 - 128)) / 64 % 64 = b2 := by omega
                  have e4 : 128 + ((b - 240) * 262144 + (b1 - 128) * 4096 +
                      (b2 - 128) * 64 + (b3 - 128)) % 64 = b3 := by omega
                  rw [← hc, ← ht, he, e1, e2, e3, e4, List.cons_append,
                    List.cons_append, List.cons_append, List.cons_append,
                    List.nil_append]
                · simp only [utf8Step, if_neg h0, if_neg h1, if_neg h2,
                    if_neg h3, if_pos h4] at h
                  rw [if_neg h5] at h
                  cases h
            · simp [utf8Step, h0, h1, h2, h3, h4] at h

/-- Each decoding step consumes at least one byte. -/
theorem utf8Step_length {l : List Nat} {c : Char} {tail : List Nat}
    (h : utf8Step l = some (c, tail)) : tail.length < l.length := by
  have hs := utf8Step_sound h
  have hp := utf8EncodeChar_length_pos c
  rw [← hs, List.length_append]
  omega

/-! ### Facts about whole-list UTF-8 decoding -/

theorem utf8DecodeAux_nil (fuel : Nat) : utf8DecodeAux fuel [] = some [] := by
  cases fuel <;> rfl

theorem utf8DecodeAux_cons (fuel b : Nat) (rest : List Nat) :
    utf8DecodeAux (fuel + 1) (b :: rest) =
      match utf8Step (b :: rest) with
      | some (c, tail) => (utf8DecodeAux fuel tail).map (c :: ·)
      | none => none := rfl

/-- The decoder does not depend on the fuel, as long as the fuel dominates
the length of the byte list. -/
theorem utf8DecodeAux_congr : ∀ (f₁ f₂ : Nat) (l : List Nat),
    l.length ≤ f₁ → l.length ≤ f₂ → utf8DecodeAux f₁ l = utf8DecodeAux f₂ l := by
  intro f₁
  induction f₁ with
  | zero =>
    intro f₂ l h1 h2
    match l with
    | [] => rw [utf8DecodeAux_nil, utf8DecodeAux_nil]
    | b :: rest => simp at h1
  | succ f ih =>
    intro f₂ l h1 h2
    match l with
    | [] => rw [utf8DecodeAux_nil, utf8DecodeAux_nil]
    | b :: rest =>
      match f₂ with
      | 0 => simp at h2
      | g + 1 =>
        rw [utf8DecodeAux_cons, utf8DecodeAux_cons]
        cases hstep : utf8Step (b :: rest) with
        | none => rfl
        | some ct =>
          obtain ⟨c, tail⟩ := ct
          have hlen := utf8Step_length hstep
          simp only [List.length_cons] at h1 h2 hlen
          have hih := ih g tail (by omega) (by omega)
          simp [hih]

/-- Decoding the encoding of a character list followed by arbitrary trailing
bytes peels off exactly that character list. -/
theorem utf8DecodeAux_encodeChars : ∀ (cs : List Char) (r : List Nat) (fuel : Nat),
    (utf8EncodeChars cs ++ r).length ≤ fuel →
    utf8DecodeAux fuel (utf8EncodeChars cs ++ r) =
      (utf8DecodeAux r.length r).map (cs ++ ·) := by
  intro cs
  induction cs with
  | nil =>
    intro r fuel h
    simp only [utf8EncodeChars, List.nil_append] at h ⊢
    rw [utf8DecodeAux_congr fuel r.length r h le_rfl]
    cases utf8DecodeAux r.length r <;> simp
  | cons c cs ih =>
    intro r fuel h
    have hcons : utf8EncodeChars (c :: cs) ++ r =
        utf8EncodeChar c ++ (utf8EncodeChars cs ++ r) := by
      simp [utf8EncodeChars, List.append_assoc]
    rw [hcons] at h ⊢
    have hstep := utf8Step_encodeChar c (utf8EncodeChars cs ++ r)
    rcases he : utf8EncodeChar c with _ | ⟨b, bs⟩
    · have := utf8EncodeChar_length_pos c
      rw [he] at this
      simp at this
    · rw [he] at hstep h
      rw [List.cons_append] at hstep h ⊢
      match fuel with
      | 0 => simp at h
      | f + 1 =>
        rw [utf8DecodeAux_cons, hstep]
        have hlen : (utf8EncodeChars cs ++ r).length ≤ f := by
          simp only [List.length_cons, List.length_append] at h ⊢
          omega
        have hih := ih r f hlen
        simp only [hih, Option.map_map]
        cases utf8DecodeAux r.length r <;> rfl

/-- Decoding undoes encoding, with arbitrary trailing bytes preserved into
the decoder's continuation. -/
theorem utf8Decode?_encode_append (cs : List Char) (r : List Nat) :
    utf8Decode? (utf8EncodeChars cs ++ r) = (utf8Decode? r).map (cs ++ ·) :=
  utf8DecodeAux_encodeChars cs r _ le_rfl

/-- Decoding undoes encoding. -/
theorem utf8Decode?_encode (cs : List Char) :
    utf8Decode? (utf8EncodeChars cs) = some cs := by
  have h := utf8Decode?_encode_append cs []
  simpa [utf8Decode?, utf8DecodeAux_nil] using h

/-- A byte list the strict decoder accepts is the encoding of its decoding:
only canonical UTF-8 is accepted. -/
theorem utf8DecodeAux_sound : ∀ (fuel : Nat) (l : List Nat) (cs : List Char),
    utf8DecodeAux fuel l = some cs → utf8EncodeChars cs = l := by
  intro fuel
  induction fuel with
  | zero =>
    intro l cs h
    match l with
    | [] =>
      rw [utf8DecodeAux_nil] at h
      cases h
      rfl
    | b :: rest => cases h
  | succ f ih =>
    intro l cs h
    match l with
    | [] =>
      rw [utf8DecodeAux_nil] at h
      cases h
      rfl
    | b :: rest =>
      rw [utf8DecodeAux_cons] at h
      cases hstep : utf8Step (b :: rest) with
      | none => rw [hstep] at h; cases h
      | some ct =>
        obtain ⟨c, tail⟩ := ct
        rw [hstep] at h
        simp only [Option.map_eq_some'] at h
        obtain ⟨cs', hcs', rfl⟩ := h
        have henc := ih tail cs' hcs'
        have hl := utf8Step_sound hstep
        calc utf8EncodeChars (c :: cs') = utf8EncodeChar c ++ utf8EncodeChars cs' :=
          rfl
        _ = utf8EncodeChar c ++ tail := by rw [henc]
        _ = b :: rest := hl

/-- Whole-list version of decoder soundness. -/
theorem utf8Decode?_sound {l : List Nat} {cs : List Char}
    (h : utf8Decode? l = some cs) : utf8EncodeChars cs = l :=
  utf8DecodeAux_sound l.length l cs h

/-! ### Facts about the fixed 12-byte header -/

theorem le4_length (n : Nat) : (le4 n).length = 4 := rfl

theorem fromBytesLE_le4 {n : Nat} (h : n < 4294967296) :
    fromBytesLE (le4 n) = n := by
  simp only [le4, fromBytesLE]
  omega

/-- Reading the three 4-byte fields back out of an assembled header. -/
theorem decode_header_le4 {t ks vs : Nat} (ht : t < 4294967296)
    (hk : ks < 4294967296) (hv : vs < 4294967296) :
    decode_header (le4 t ++ le4 ks ++ le4 vs) = (t, ks, vs) := by
  simp only [le4, List.cons_append, List.nil_append, decode_header,
    List.take_succ_cons, List.take_zero, List.drop_succ_cons, List.drop_zero,
    fromBytesLE, Prod.mk.injEq]
  refine ⟨by omega, by omega, by omega⟩

/-- `encode_header` succeeds on in-range inputs and produces the three
little-endian fields in order. -/
theorem encode_header_eq (t ks vs : Nat) (ht : t < 4294967296)
    (hk : ks < 4294967296) (hv : vs < 4294967296) :
    encode_header (t : Int) (ks : Int) (vs : Int) =
      some (le4 t ++ le4 ks ++ le4 vs) := by
  have h1 : (0 : Int) ≤ (t : Int) ∧ (t : Int) < 4294967296 :=
    ⟨Int.ofNat_nonneg t, by exact_mod_cast ht⟩
  have h2 : (0 : Int) ≤ (ks : Int) ∧ (ks : Int) < 4294967296 :=
    ⟨Int.ofNat_nonneg ks, by exact_mod_cast hk⟩
  have h3 : (0 : Int) ≤ (vs : Int) ∧ (vs : Int) < 4294967296 :=
    ⟨Int.ofNat_nonneg vs, by exact_mod_cast hv⟩
  rw [encode_header, to_bytes4, to_bytes4, to_bytes4, if_pos h1, if_pos h2,
    if_pos h3]
  simp

/-- `encode_kv` on an in-range timestamp assembles header, key bytes and
value bytes by concatenation. -/
theorem encode_kv_eq (t : Nat) (key value : String) (ht : t < 4294967296)
    (hk : (utf8Encode key).length < 4294967296)
    (hv : (utf8Encode value).length < 4294967296) :
    encode_kv (t : Int) key value =
      some ((t : Int),
        (le4 t ++ le4 (utf8Encode key).length ++ le4 (utf8Encode value).length) ++
          utf8Encode key ++ utf8Encode value) := by
  rw [encode_kv]
  rw [encode_header_eq t _ _ ht hk hv]

/-- Decoding a byte list of the shape `header ++ key bytes ++ value bytes ++
trailing garbage` slices out exactly the declared ranges and decodes them. -/
theorem decode_kv_parts (t : Nat) (k v suffix : List Nat)
    (ht : t < 4294967296) (hk : k.length < 4294967296)
    (hv : v.length < 4294967296) :
    decode_kv ((le4 t ++ le4 k.length ++ le4 v.length) ++ k ++ v ++ suffix) =
      match utf8Decode? k, utf8Decode? v with
      | some kc, some vc => some (t, ⟨kc⟩, ⟨vc⟩)
      | _, _ => none := by
  have hH : (le4 t ++ le4 k.length ++ le4 v.length).length = 12 := by
    simp [le4]
  have hdata : (le4 t ++ le4 k.length ++ le4 v.length) ++ k ++ v ++ suffix =
      (le4 t ++ le4 k.length ++ le4 v.length) ++ (k ++ (v ++ suffix)) := by
    simp [List.append_assoc]
  rw [hdata]
  have htake : ((le4 t ++ le4 k.length ++ le4 v.length) ++
      (k ++ (v ++ suffix))).take 12 = le4 t ++ le4 k.length ++ le4 v.length :=
    List.take_left' hH
  have hdrop : ((le4 t ++ le4 k.length ++ le4 v.length) ++
      (k ++ (v ++ suffix))).drop 12 = k ++ (v ++ suffix) :=
    List.drop_left' hH
  have hdrop2 : ((le4 t ++ le4 k.length ++ le4 v.length) ++
      (k ++ (v ++ suffix))).drop (12 + k.length) = v ++ suffix := by
    rw [← List.drop_drop, hdrop, List.drop_left]
  rw [decode_kv, htake, decode_header_le4 ht hk hv]
  dsimp only
  rw [hdrop, hdrop2, List.take_left, List.take_left]

/-- Record round trip with arbitrary trailing bytes after the record. -/
theorem decode_encode_kv (t : Nat) (key value : String) (suffix : List Nat)
    (ht : t < 4294967296) (hk : (utf8Encode key).length < 4294967296)
    (hv : (utf8Encode value).length < 4294967296) :
    ∃ b, encode_kv (t : Int) key value = some ((t : Int), b) ∧
      decode_kv (b ++ suffix) = some (t, key, value) := by
  refine ⟨_, encode_kv_eq t key value ht hk hv, ?_⟩
  have hassoc :
      ((le4 t ++ le4 (utf8Encode key).length ++ le4 (utf8Encode value).length) ++
        utf8Encode key ++ utf8Encode value) ++ suffix =
      (le4 t ++ le4 (utf8Encode key).length ++ le4 (utf8Encode value).length) ++
        utf8Encode key ++ utf8Encode value ++ suffix := by
    simp [List.append_assoc]
  rw [hassoc, decode_kv_parts t (utf8Encode key) (utf8Encode value) suffix ht hk hv]
  have hkd : utf8Decode? (utf8Encode key) = some key.data :=
    utf8Decode?_encode key.data
  have hvd : utf8Decode? (utf8Encode value) = some value.data :=
    utf8Decode?_encode value.data
  rw [hkd, hvd]

/-! ### The claims -/

/-- C1: Round-trip law — for every timestamp in `[0, 2^32-1]` and every pair
of strings whose UTF-8 encodings are each at most `2^32-1` bytes long,
`decode_kv` applied to the bytes returned by `encode_kv` yields exactly the
original `(timestamp, key, value)` triple. -/
theorem roundtrip_encode_decode_kv (t : Nat) (key value : String)
    (ht : t ≤ 4294967295) (hk : (utf8Encode key).length ≤ 4294967295)
    (hv : (utf8Encode value).length ≤ 4294967295) :
    ∃ b, encode_kv (t : Int) key value = some ((t : Int), b) ∧
      decode_kv b = some (t, key, value) := by
  obtain ⟨b, he, hd⟩ := decode_encode_kv t key value [] (by omega) (by omega)
    (by omega)
  rw [List.append_nil] at hd
  exact ⟨b, he, hd⟩

/-- Witness for C1 at the concrete record of the spec's scenario. -/
theorem roundtrip_encode_decode_kv_witness :
    ∃ b, encode_kv ((1700000000 : Nat) : Int) "hamlet" "shakespeare" =
        some (((1700000000 : Nat) : Int), b) ∧
      decode_kv b = some (1700000000, "hamlet", "shakespeare") :=
  roundtrip_encode_decode_kv 1700000000 "hamlet" "shakespeare" (by decide)
    (by decide) (by decide)

/-- C4: Header round-trip — for every triple of integers in `[0, 2^32-1]`,
`decode_header` of `encode_header` of the triple is the triple. -/
theorem header_roundtrip (t ks vs : Nat) (ht : t ≤ 4294967295)
    (hk : ks ≤ 4294967295) (hv : vs ≤ 4294967295) :
    ∃ h, encode_header (t : Int) (ks : Int) (vs : Int) = some h ∧
      decode_header h = (t, ks, vs) :=
  ⟨_, encode_header_eq t ks vs (by omega) (by omega) (by omega),
    decode_header_le4 (by omega) (by omega) (by omega)⟩

/-- Witness for C4 at the spec's concrete header values. -/
theorem header_roundtrip_witness :
    ∃ h, encode_header ((1700000000 : Nat) : Int) ((6 : Nat) : Int)
        ((11 : Nat) : Int) = some h ∧ decode_header h = (1700000000, 6, 11) :=
  header_roundtrip 1700000000 6 11 (by decide) (by decide) (by decide)

/-- C5: Fixed header layout — for in-range inputs `encode_header` returns
exactly 12 bytes: the 4-byte little-endian encoding of `t` at offsets 0-3,
of `ks` at offsets 4-7 and of `vs` at offsets 8-11, in that order. -/
theorem encode_header_layout (t ks vs : Nat) (ht : t ≤ 4294967295)
    (hk : ks ≤ 4294967295) (hv : vs ≤ 4294967295) :
    ∃ l, encode_header (t : Int) (ks : Int) (vs : Int) = some l ∧
      l.length = 12 ∧ l.take 4 = le4 t ∧ (l.drop 4).take 4 = le4 ks ∧
      l.drop 8 = le4 vs := by
  refine ⟨_, encode_header_eq t ks vs (by omega) (by omega) (by omega),
    by simp [le4], ?_, ?_, ?_⟩
  · rw [List.append_assoc, List.take_left' (le4_length t)]
  · rw [List.append_assoc, List.drop_left' (le4_length t),
      List.take_left' (le4_length ks)]
  · rw [List.drop_left' (show (le4 t ++ le4 ks).length = 8 by simp [le4])]

/-- Witness for C5 at the spec's concrete header values. -/
theorem encode_header_layout_witness :
    ∃ l, encode_header ((1700000000 : Nat) : Int) ((6 : Nat) : Int)
        ((11 : Nat) : Int) = some l ∧
      l.length = 12 ∧ l.take 4 = le4 1700000000 ∧ (l.drop 4).take 4 = le4 6 ∧
      l.drop 8 = le4 11 :=
  encode_header_layout 1700000000 6 11 (by decide) (by decide) (by decide)

/-- C3: `encode_header` fails (Python raises `OverflowError`, surfaced
synchronously to the caller) whenever one of its three integer inputs is
negative or exceeds `2^32-1`; no value is silently truncated to 4 bytes. -/
theorem encode_header_out_of_range (t ks vs : Int)
    (h : t < 0 ∨ 4294967295 < t ∨ ks < 0 ∨ 4294967295 < ks ∨ vs < 0 ∨
      4294967295 < vs) :
    encode_header t ks vs = none := by
  rw [encode_header]
  rcases h with h | h | h | h | h | h
  · have hb : to_bytes4 t = none := by rw [to_bytes4, if_neg (by omega)]
    rw [hb]
  · have hb : to_bytes4 t = none := by rw [to_bytes4, if_neg (by omega)]
    rw [hb]
  · have hb : to_bytes4 ks = none := by rw [to_bytes4, if_neg (by omega)]
    rw [hb]
    cases to_bytes4 t <;> cases to_bytes4 vs <;> rfl
  · have hb : to_bytes4 ks = none := by rw [to_bytes4, if_neg (by omega)]
    rw [hb]
    cases to_bytes4 t <;> cases to_bytes4 vs <;> rfl
  · have hb : to_bytes4 vs = none := by rw [to_bytes4, if_neg (by omega)]
    rw [hb]
    cases to_bytes4 t <;> cases to_bytes4 ks <;> rfl
  · have hb : to_bytes4 vs = none := by rw [to_bytes4, if_neg (by omega)]
    rw [hb]
    cases to_bytes4 t <;> cases to_bytes4 ks <;> rfl

/-- Witness for C3: a negative timestamp and an overflowing timestamp both
make `encode_header` fail. -/
theorem encode_header_out_of_range_witness :
    encode_header (-1) 0 0 = none ∧ encode_header 4294967296 0 0 = none :=
  ⟨encode_header_out_of_range (-1) 0 0 (by decide),
   encode_header_out_of_range 4294967296 0 0 (by decide)⟩

/-- C6: Length fidelity — the `key_size` and `value_size` fields written
into the header equal the byte lengths of the UTF-8 encodings of key and
value (never their character counts; the witness checks key `"héllo"`,
5 characters but 6 UTF-8 bytes). -/
theorem encode_kv_length_fidelity (t : Nat) (key value : String)
    (ht : t ≤ 4294967295) (hk : (utf8Encode key).length ≤ 4294967295)
    (hv : (utf8Encode value).length ≤ 4294967295) :
    ∃ b, encode_kv (t : Int) key value = some ((t : Int), b) ∧
      decode_header (b.take 12) =
        (t, (utf8Encode key).length, (utf8Encode value).length) := by
  refine ⟨_, encode_kv_eq t key value (by omega) (by omega) (by omega), ?_⟩
  rw [List.append_assoc,
    List.take_left' (show (le4 t ++ le4 (utf8Encode key).length ++
      le4 (utf8Encode value).length).length = 12 by simp [le4])]
  exact decode_header_le4 (by omega) (by omega) (by omega)

/-- Witness for C6 with the multi-byte key `"héllo"`: the key_size field is
the byte count 6, not the character count 5. -/
theorem encode_kv_length_fidelity_witness :
    (∃ b, encode_kv ((7 : Nat) : Int) "héllo" "ok" = some (((7 : Nat) : Int), b) ∧
      decode_header (b.take 12) =
        (7, (utf8Encode "héllo").length, (utf8Encode "ok").length)) ∧
    (utf8Encode "héllo").length = 6 ∧ ("héllo" : String).length = 5 ∧
    (utf8Encode "ok").length = 2 :=
  ⟨encode_kv_length_fidelity 7 "héllo" "ok" (by decide) (by decide) (by decide),
   by decide, by decide, by decide⟩

/-- C7: Concrete scenario — `encode_kv 1700000000 "hamlet" "shakespeare"`
produces `1700000000` little-endian at offsets 0-3, `6` at offsets 4-7,
`11` at offsets 8-11, then the bytes of `"hamlet"` and of `"shakespeare"`,
and `decode_kv` of that exact byte sequence returns the original triple. -/
theorem concrete_scenario :
    encode_kv ((1700000000 : Nat) : Int) "hamlet" "shakespeare" =
      some (((1700000000 : Nat) : Int),
        (le4 1700000000 ++ le4 6 ++ le4 11) ++ utf8Encode "hamlet" ++
          utf8Encode "shakespeare") ∧
    le4 1700000000 = [0, 241, 83, 101] ∧
    le4 6 = [6, 0, 0, 0] ∧
    le4 11 = [11, 0, 0, 0] ∧
    utf8Encode "hamlet" = [104, 97, 109, 108, 101, 116] ∧
    utf8Encode "shakespeare" =
      [115, 104, 97, 107, 101, 115, 112, 101, 97, 114, 101] ∧
    decode_kv ((le4 1700000000 ++ le4 6 ++ le4 11) ++ utf8Encode "hamlet" ++
        utf8Encode "shakespeare") =
      some (1700000000, "hamlet", "shakespeare") := by
  refine ⟨by decide, by decide, by decide, by decide, by decide, by decide,
    by decide⟩

/-- C9 (implicit): trailing bytes are ignored — decoding the encoding of a
valid triple concatenated with an arbitrary suffix still returns exactly the
triple; only the first `12 + key_size + value_size` bytes are consulted. -/
theorem decode_kv_ignores_trailing (t : Nat) (key value : String)
    (suffix : List Nat) (ht : t ≤ 4294967295)
    (hk : (utf8Encode key).length ≤ 4294967295)
    (hv : (utf8Encode value).length ≤ 4294967295) :
    ∃ b, encode_kv (t : Int) key value = some ((t : Int), b) ∧
      decode_kv (b ++ suffix) = some (t, key, value) :=
  decode_encode_kv t key value suffix (by omega) (by omega) (by omega)

/-- Witness for C9 with three bytes of trailing garbage. -/
theorem decode_kv_ignores_trailing_witness :
    ∃ b, encode_kv ((42 : Nat) : Int) "key" "value" =
        some (((42 : Nat) : Int), b) ∧
      decode_kv (b ++ [255, 0, 7]) = some (42, "key", "value") :=
  decode_kv_ignores_trailing 42 "key" "value" [255, 0, 7] (by decide)
    (by decide) (by decide)

/-- C10 (implicit): `decode_header` is total — on any byte sequence,
including one shorter than 12 bytes, it returns the triple obtained by
little-endian interpretation of the (possibly empty or partial) 4-byte
slices; on the empty sequence it returns `(0, 0, 0)`, and `decode_kv` of
the empty sequence returns `(0, "", "")` without error. -/
theorem decode_header_total :
    (∀ data : List Nat, decode_header data =
      (fromBytesLE (data.take 4), fromBytesLE ((data.drop 4).take 4),
        fromBytesLE ((data.drop 8).take 4))) ∧
    decode_header [] = (0, 0, 0) ∧
    decode_kv [] = some (0, "", "") :=
  ⟨fun _ => rfl, by decide, by decide⟩

/-- C2 counterexample: a 12-byte buffer whose header declares
`value_size = 100` (so the declared total length is 112) is shorter than the
declared total, yet `decode_kv` does not fail — it returns the triple
`(0, "", "")` with a silently shortened (empty) value. -/
theorem decode_kv_truncation_counterexample :
    decode_header ((le4 0 ++ le4 0 ++ le4 100).take 12) = (0, 0, 100) ∧
    (le4 0 ++ le4 0 ++ le4 100).length < 12 + 0 + 100 ∧
    decode_kv (le4 0 ++ le4 0 ++ le4 100) = some (0, "", "") := by
  refine ⟨by decide, by decide, by decide⟩

/-- C2 amended: `decode_kv` performs no truncation check.  On a buffer
shorter than the declared `12 + key_size + value_size` it never reads past
the supplied buffer, but it does not fail either: whenever the clamped key
and value slices are valid UTF-8 it silently returns the triple built from
the shortened slices. -/
theorem decode_kv_truncated_silently (data : List Nat) (t ks vs : Nat)
    (hh : decode_header (data.take 12) = (t, ks, vs))
    (hshort : data.length < 12 + ks + vs) (kc vc : List Char)
    (hk : utf8Decode? ((data.drop 12).take ks) = some kc)
    (hv : utf8Decode? ((data.drop (12 + ks)).take vs) = some vc) :
    decode_kv data = some (t, ⟨kc⟩, ⟨vc⟩) := by
  rw [decode_kv, hh]
  dsimp only
  rw [hk, hv]

/-- Witness for the amended C2 at the counterexample's truncated buffer. -/
theorem decode_kv_truncated_silently_witness :
    decode_kv (le4 0 ++ le4 0 ++ le4 100) = some (0, ⟨[]⟩, ⟨[]⟩) :=
  decode_kv_truncated_silently (le4 0 ++ le4 0 ++ le4 100) 0 0 100 (by decide)
    (by decide) [] [] (by decide) (by decide)

/-- C8: invalid UTF-8 detection — on a buffer long enough for the declared
sizes, if the key byte range or the value byte range is not valid UTF-8
(not the encoding of any character sequence), `decode_kv` fails with `none`
(Python raises `UnicodeDecodeError` synchronously) instead of substituting
replacement characters. -/
theorem decode_kv_invalid_utf8 (data : List Nat) (t ks vs : Nat)
    (hh : decode_header (data.take 12) = (t, ks, vs))
    (hlen : 12 + ks + vs ≤ data.length)
    (hbad : (∀ cs : List Char, utf8EncodeChars cs ≠ (data.drop 12).take ks) ∨
      (∀ cs : List Char, utf8EncodeChars cs ≠ (data.drop (12 + ks)).take vs)) :
    decode_kv data = none := by
  rw [decode_kv, hh]
  dsimp only
  cases hk : utf8Decode? ((data.drop 12).take ks) with
  | none => cases utf8Decode? ((data.drop (12 + ks)).take vs) <;> rfl
  | some kc =>
    cases hv : utf8Decode? ((data.drop (12 + ks)).take vs) with
    | none => rfl
    | some vc =>
      exfalso
      rcases hbad with hb | hb
      · exact hb kc (utf8Decode?_sound hk)
      · exact hb vc (utf8Decode?_sound hv)

/-- Witness for C8: a 13-byte buffer declaring a 1-byte key whose key byte
`0xFF` is not valid UTF-8 makes `decode_kv` fail. -/
theorem decode_kv_invalid_utf8_witness :
    decode_kv (le4 0 ++ le4 1 ++ le4 0 ++ [255]) = none := by
  have h255 : ∀ cs : List Char, utf8EncodeChars cs ≠ [255] := by
    intro cs hcs
    have hdec := utf8Decode?_encode cs
    rw [hcs] at hdec
    have hnone : utf8Decode? [255] = none := by decide
    rw [hnone] at hdec
    cases hdec
  refine decode_kv_invalid_utf8 (le4 0 ++ le4 1 ++ le4 0 ++ [255]) 0 1 0
    (by decide) (by decide) (Or.inl ?_)
  have hslice : (((le4 0 ++ le4 1 ++ le4 0 ++ [255]).drop 12).take 1) =
      [255] := by decide
  rw [hslice]
  exact h255
